import Mathlib

set_option maxRecDepth 100000

/-!
Verification of the text-position-mapping, search/replace, and syntax
highlighting core of the Notepad repository.

Documents are modelled as `List Char` (the flat snapshot the Python code
reads from the Tk text widget). Offsets are zero-based `Nat` indices;
positions are `(line, column)` pairs with a one-based line and zero-based
column, exactly as produced by `SyntaxHighlighter._get_text_index`.
-/

/-- Count of newline characters in a list, as `str.count("\n")` over a
Python string slice. -/
def countNl : List Char → Nat
  | [] => 0
  | c :: cs => (if c == '\n' then 1 else 0) + countNl cs

/-- Index of the last newline in the list, as Python `str.rfind("\n", 0, n)`
applied to the prefix (with `none` for Python's `-1`). -/
def rfindNl : List Char → Option Nat
  | [] => none
  | c :: cs =>
    match rfindNl cs with
    | some j => some (j + 1)
    | none => if c == '\n' then some 0 else none

/-- Index of the `n`-th newline character (0-based) of the list, if any. -/
def nthNlIdx : List Char → Nat → Option Nat
  | [], _ => none
  | c :: cs, 0 =>
    if c == '\n' then some 0 else (nthNlIdx cs 0).map (· + 1)
  | c :: cs, n + 1 =>
    if c == '\n' then (nthNlIdx cs n).map (· + 1)
    else (nthNlIdx cs (n + 1)).map (· + 1)

/-- `SyntaxHighlighter._get_text_index(content, char_pos)`: the `(line, column)`
pair with `line = 1 + content[:char_pos].count("\n")` and
`column = char_pos - content.rfind("\n", 0, char_pos) - 1` (or `char_pos`
when there is no preceding newline). Python slicing clamps `char_pos` to the
length of `content`, which `List.take` also does. -/
def getTextIndex (content : List Char) (charPos : Nat) : Nat × Nat :=
  match rfindNl (content.take charPos) with
  | some j => (countNl (content.take charPos) + 1, charPos - j - 1)
  | none => (countNl (content.take charPos) + 1, charPos)

/-- Modelled from the spec: the inverse position-to-offset conversion is
performed by the Tk text widget, not by repository code; per the spec
(section 4.1) it is done "by locating the nth newline": line 1 starts at
offset 0, and line `k + 2` starts one past the `k`-th newline; the offset is
that line start plus the column. -/
def positionToOffset (content : List Char) (pos : Nat × Nat) : Option Nat :=
  if pos.1 ≤ 1 then some pos.2
  else (nthNlIdx content (pos.1 - 2)).map (fun j => j + 1 + pos.2)

lemma rfindNl_eq_none (l : List Char) (h : countNl l = 0) : rfindNl l = none := by
  induction l with
  | nil => rfl
  | cons c cs ih =>
    by_cases hc : c = '\n'
    · subst hc; simp [countNl] at h
    · simp only [countNl, hc] at h
      simp only [beq_iff_eq, hc, if_false, Nat.zero_add] at h
      simp [rfindNl, ih h, beq_iff_eq, hc]

lemma rfindNl_eq_nthNlIdx (l : List Char) :
    ∀ m, countNl l = m + 1 → ∃ j, rfindNl l = some j ∧ nthNlIdx l m = some j := by
  induction l with
  | nil => intro m h; simp [countNl] at h
  | cons c cs ih =>
    intro m h
    by_cases hc : c = '\n'
    · subst hc
      simp only [countNl, beq_self_eq_true, if_true] at h
      cases m with
      | zero =>
        have h0 : countNl cs = 0 := by omega
        refine ⟨0, ?_, ?_⟩
        · simp [rfindNl, rfindNl_eq_none cs h0]
        · simp [nthNlIdx]
      | succ m' =>
        obtain ⟨j, hr, hn⟩ := ih m' (by omega)
        refine ⟨j + 1, ?_, ?_⟩
        · simp [rfindNl, hr]
        · simp [nthNlIdx, hn]
    · simp only [countNl, beq_iff_eq, hc, if_false, Nat.zero_add] at h
      obtain ⟨j, hr, hn⟩ := ih m h
      refine ⟨j + 1, ?_, ?_⟩
      · simp [rfindNl, hr]
      · cases m with
        | zero => simp [nthNlIdx, beq_iff_eq, hc, hn]
        | succ m' => simp [nthNlIdx, beq_iff_eq, hc, hn]

lemma rfindNl_lt_length (l : List Char) : ∀ j, rfindNl l = some j → j < l.length := by
  induction l with
  | nil => intro j h; simp [rfindNl] at h
  | cons c cs ih =>
    intro j h
    unfold rfindNl at h
    cases hr : rfindNl cs with
    | some j' =>
      rw [hr] at h
      have := ih j' hr
      simp only [Option.some.injEq] at h
      simp only [List.length_cons]
      omega
    | none =>
      rw [hr] at h
      by_cases hc : c = '\n'
      · subst hc
        simp only [beq_self_eq_true, if_true, Option.some.injEq] at h
        simp only [List.length_cons]
        omega
      · simp [beq_iff_eq, hc] at h

lemma nthNlIdx_take (l : List Char) :
    ∀ o n j, nthNlIdx (l.take o) n = some j → nthNlIdx l n = some j := by
  induction l with
  | nil => intro o n j h; simp [List.take_nil, nthNlIdx] at h
  | cons c cs ih =>
    intro o n j h
    cases o with
    | zero => simp [nthNlIdx] at h
    | succ o' =>
      rw [List.take_succ_cons] at h
      by_cases hc : c = '\n'
      · subst hc
        cases n with
        | zero => simpa [nthNlIdx] using h
        | succ n' =>
          simp only [nthNlIdx, beq_self_eq_true, if_true] at h ⊢
          obtain ⟨j', hj', rfl⟩ := Option.map_eq_some'.mp h
          exact Option.map_eq_some'.mpr ⟨j', ih o' n' j' hj', rfl⟩
      · cases n with
        | zero =>
          simp only [nthNlIdx, beq_iff_eq, hc, if_false] at h ⊢
          obtain ⟨j', hj', rfl⟩ := Option.map_eq_some'.mp h
          exact Option.map_eq_some'.mpr ⟨j', ih o' 0 j' hj', rfl⟩
        | succ n' =>
          simp only [nthNlIdx, beq_iff_eq, hc, if_false] at h ⊢
          obtain ⟨j', hj', rfl⟩ := Option.map_eq_some'.mp h
          exact Option.map_eq_some'.mpr ⟨j', ih o' (n' + 1) j' hj', rfl⟩

/-- Round trip offset-to-position-to-offset, shared by the claims about the
position mapper. -/
lemma positionToOffset_getTextIndex (content : List Char) (o : Nat)
    (h : o ≤ content.length) :
    positionToOffset content (getTextIndex content o) = some o := by
  cases hm : countNl (content.take o) with
  | zero =>
    have hr : rfindNl (content.take o) = none := rfindNl_eq_none _ hm
    unfold getTextIndex
    rw [hr, hm]
    simp [positionToOffset]
  | succ m =>
    obtain ⟨j, hr, hn⟩ := rfindNl_eq_nthNlIdx _ m hm
    have hj : j < (content.take o).length := rfindNl_lt_length _ j hr
    rw [List.length_take] at hj
    have hjo : j < o := lt_of_lt_of_le hj (min_le_left _ _)
    unfold getTextIndex
    rw [hr, hm]
    unfold positionToOffset
    simp only
    rw [if_neg (by omega)]
    have hn' : nthNlIdx content (m + 1 + 1 - 2) = some j := by
      simpa using nthNlIdx_take content o m j hn
    rw [hn']
    simp only [Option.map_some']
    congr 1
    omega

/-- C1: for every document `D` and offset `o ≤ len D`, converting `o` to a
`(line, column)` position with `_get_text_index` (line = 1 + newlines before
`o`, column = distance to the preceding newline or document start) and
converting that position back to an offset (locating the nth newline, per the
spec) yields exactly `o`. -/
theorem offset_position_roundtrip (content : List Char) (o : Nat)
    (h : o ≤ content.length) :
    positionToOffset content (getTextIndex content o) = some o :=
  positionToOffset_getTextIndex content o h

/-- Witness for C1 at the concrete document `"ab\ncd"` and offset 4. -/
theorem offset_position_roundtrip_witness :
    4 ≤ ("ab\ncd".toList).length ∧
      positionToOffset ("ab\ncd".toList) (getTextIndex ("ab\ncd".toList) 4) = some 4 :=
  ⟨by decide, offset_position_roundtrip ("ab\ncd".toList) 4 (by decide)⟩

/-- C7 counterexample: on the document `"ab"` (length 2), the offset 3 — which
is past the document end — is mapped to column 3, not clamped to the last
valid position `(1, 2)` (the image of the end-of-document offset). -/
theorem getTextIndex_no_clamp_counterexample :
    ("ab".toList).length ≤ 3 ∧
      getTextIndex ("ab".toList) 3 = (1, 3) ∧
      getTextIndex ("ab".toList) (("ab".toList).length) = (1, 2) ∧
      ((1, 3) : Nat × Nat) ≠ (1, 2) := by
  decide

/-- C7 amended: for offsets at or past the end of the document,
`_get_text_index` never fails; it clamps the line to the last line of the
document, but it does not clamp the column: the column exceeds the
end-of-document column by exactly the overshoot `o - len D`. Offset 0 always
maps to line 1, column 0. -/
theorem getTextIndex_past_end (D : List Char) (o : Nat) (h : D.length ≤ o) :
    (getTextIndex D o).1 = (getTextIndex D D.length).1 ∧
      (getTextIndex D o).2 = (getTextIndex D D.length).2 + (o - D.length) ∧
      getTextIndex D 0 = (1, 0) := by
  have ht : D.take o = D := List.take_of_length_le h
  have ht2 : D.take D.length = D := List.take_length D
  refine ⟨?_, ?_, ?_⟩
  · unfold getTextIndex
    rw [ht, ht2]
    cases rfindNl D <;> rfl
  · unfold getTextIndex
    rw [ht, ht2]
    cases hr : rfindNl D with
    | none => simp; omega
    | some j =>
      have hj : j < D.length := rfindNl_lt_length D j hr
      simp only
      omega
  · rfl

/-- Witness for the amended C7 at the document `"a\nb"` and offset 5. -/
theorem getTextIndex_past_end_witness :
    ("a\nb".toList).length ≤ 5 ∧
      ((getTextIndex ("a\nb".toList) 5).1 =
          (getTextIndex ("a\nb".toList) (("a\nb".toList).length)).1 ∧
        (getTextIndex ("a\nb".toList) 5).2 =
          (getTextIndex ("a\nb".toList) (("a\nb".toList).length)).2 +
            (5 - ("a\nb".toList).length) ∧
        getTextIndex ("a\nb".toList) 0 = (1, 0)) :=
  ⟨by decide, getTextIndex_past_end ("a\nb".toList) 5 (by decide)⟩

/-- Python's `ch.isalnum() or ch == "_"` test used by the whole-word filter
(ASCII range, which covers every document the search code is specified on). -/
def isWordChar (c : Char) : Bool := c.isAlphanum || c == '_'

/-- First half of `SearchReplace._is_whole_word`: the character before the
match start must not be a word character; a missing neighbour (match at the
document start) passes. -/
def beforeOk (doc : List Char) (s : Nat) : Bool :=
  match s with
  | 0 => true
  | s' + 1 =>
    match doc[s']? with
    | some c => !(isWordChar c)
    | none => true

/-- Second half of `SearchReplace._is_whole_word`: the character at the match
end must not be a word character; a missing neighbour (match at the document
end) passes. -/
def afterOk (doc : List Char) (e : Nat) : Bool :=
  match doc[e]? with
  | some c => !(isWordChar c)
  | none => true

/-- `SearchReplace._is_whole_word(start, end)`. -/
def isWholeWord (doc : List Char) (s e : Nat) : Bool :=
  beforeOk doc s && afterOk doc e

/-- Case folding used by the Tk `search -nocase` option that
`SearchReplace._text_search` passes when the case-sensitivity flag is off. -/
def foldCase (caseSens : Bool) (c : Char) : Char :=
  if caseSens then c else c.toLower

/-- The search term occurs in the document at offset `s` (under the requested
case folding). -/
def occursAt (doc term : List Char) (caseSens : Bool) (s : Nat) : Bool :=
  decide (s + term.length ≤ doc.length) &&
    ((doc.drop s).take term.length).map (foldCase caseSens)
      == term.map (foldCase caseSens)

/-- Offset of the first occurrence of the term at or after `p`: the Tk
`text.search(term, start_pos, stopindex="end")` call of
`SearchReplace._text_search`. -/
def firstOccur (doc term : List Char) (caseSens : Bool) (p : Nat) : Option Nat :=
  (List.range (doc.length + 1)).find?
    (fun q => decide (p ≤ q) && occursAt doc term caseSens q)

/-- `SearchReplace._text_search(search_term, start_pos)`: find the first
occurrence at or after `p`; when the whole-words option is on and the
occurrence fails `_is_whole_word`, retry from one character past the
occurrence start. The Nat `fuel` bounds the retry recursion (each retry
strictly advances the start, so `doc.length + 2` is always enough). -/
def textSearchFrom (doc term : List Char) (caseSens ww : Bool) :
    Nat → Nat → Option (Nat × Nat)
  | 0, _ => none
  | fuel + 1, p =>
    match firstOccur doc term caseSens p with
    | none => none
    | some s =>
      if ww && !(isWholeWord doc s (s + term.length)) then
        textSearchFrom doc term caseSens ww fuel (s + 1)
      else some (s, s + term.length)

/-- `_text_search` entry point with sufficient fuel. -/
def textSearch (doc term : List Char) (caseSens ww : Bool) (p : Nat) :
    Option (Nat × Nat) :=
  textSearchFrom doc term caseSens ww (doc.length + 2) p

/-- `SearchReplace._find_all_matches`: repeatedly call the single-match
search, restarting at each match end; after appending a match the loop stops
when the new start position reaches the Tk `end` index (one past the final
implicit newline, i.e. offset `docLen + 1`). The loop in the source has no
other exit on a successful match: the `fuel` parameter makes the recursion
well-founded in Lean, with `none` marking a run that exceeds the fuel (the
source loops forever in that case). -/
def findAllLoop (next : Nat → Option (Nat × Nat)) (docLen : Nat) :
    Nat → Nat → Option (List (Nat × Nat))
  | 0, _ => none
  | fuel + 1, p =>
    match next p with
    | none => some []
    | some (s, e) =>
      if docLen + 1 ≤ e then some [(s, e)]
      else (findAllLoop next docLen fuel e).map (fun l => (s, e) :: l)

/-- Find-all in plain-text mode (`use_regex` off), the configuration under
which `_find_all_matches` is total: fuel `docLen + 2` always suffices. -/
def findAllText (doc term : List Char) (caseSens ww : Bool) : List (Nat × Nat) :=
  (findAllLoop (textSearch doc term caseSens ww) doc.length (doc.length + 2) 0).getD []

/-- One step of `SearchReplace._replace_all`: `delete(start, end)` followed by
`insert(start, replace_text)` on the current document. -/
def replaceSpan (d : List Char) (s e : Nat) (repl : List Char) : List Char :=
  d.take s ++ (repl ++ d.drop e)

/-- `SearchReplace._replace_all`: the match list is computed against the
original document, then each match is replaced iterating over
`reversed(matches)` (highest start offset first). -/
def replaceAllApply (doc : List Char) (ms : List (Nat × Nat))
    (repl : List Char) : List Char :=
  ms.reverse.foldl (fun acc m => replaceSpan acc m.1 m.2 repl) doc

/-- C10: in the whole-word filter a missing neighbour counts as a word
boundary: a candidate match starting at offset 0 passes the before-side
check, a candidate match ending at or past the document end passes the
after-side check, and a match touching both boundaries is accepted as a
whole word outright. -/
theorem whole_word_missing_neighbor (doc : List Char) (e k : Nat) :
    beforeOk doc 0 = true ∧
      afterOk doc (doc.length + k) = true ∧
      isWholeWord doc 0 (doc.length + k) = true := by
  have ha : afterOk doc (doc.length + k) = true := by
    unfold afterOk
    rw [List.getElem?_eq_none (by omega)]
  exact ⟨rfl, ha, by simp [isWholeWord, beforeOk, ha]⟩

lemma firstOccur_spec (doc term : List Char) (caseSens : Bool) (p s : Nat)
    (h : firstOccur doc term caseSens p = some s) :
    p ≤ s ∧ s + term.length ≤ doc.length := by
  have hp := List.find?_some h
  simp only [Bool.and_eq_true, decide_eq_true_eq, occursAt] at hp
  exact ⟨hp.1, hp.2.1⟩

lemma textSearchFrom_spec (doc term : List Char) (caseSens ww : Bool) :
    ∀ fuel p s e, textSearchFrom doc term caseSens ww fuel p = some (s, e) →
      p ≤ s ∧ e = s + term.length ∧ e ≤ doc.length := by
  intro fuel
  induction fuel with
  | zero => intro p s e h; simp [textSearchFrom] at h
  | succ n ih =>
    intro p s e h
    unfold textSearchFrom at h
    cases hf : firstOccur doc term caseSens p with
    | none => rw [hf] at h; simp at h
    | some s0 =>
      rw [hf] at h
      dsimp only at h
      obtain ⟨hp, hlen⟩ := firstOccur_spec doc term caseSens p s0 hf
      by_cases hw : (ww && !(isWholeWord doc s0 (s0 + term.length))) = true
      · rw [if_pos hw] at h
        obtain ⟨h1, h2, h3⟩ := ih (s0 + 1) s e h
        exact ⟨by omega, h2, h3⟩
      · rw [if_neg hw] at h
        simp only [Option.some.injEq, Prod.mk.injEq] at h
        obtain ⟨rfl, rfl⟩ := h
        exact ⟨hp, rfl, hlen⟩

lemma findAllLoop_text_spec (doc term : List Char) (caseSens ww : Bool) :
    ∀ fuel p l,
      findAllLoop (textSearch doc term caseSens ww) doc.length fuel p = some l →
      (∀ m ∈ l, p ≤ m.1 ∧ m.2 = m.1 + term.length ∧ m.2 ≤ doc.length) ∧
        (term ≠ [] →
          List.Chain' (fun a b : Nat × Nat => a.1 < b.1 ∧ a.2 ≤ b.1) l) := by
  intro fuel
  induction fuel with
  | zero => intro p l h; simp [findAllLoop] at h
  | succ n ih =>
    intro p l h
    unfold findAllLoop at h
    cases hn : textSearch doc term caseSens ww p with
    | none =>
      rw [hn] at h
      simp only [Option.some.injEq] at h
      subst h
      exact ⟨by simp, fun _ => List.chain'_nil⟩
    | some se =>
      obtain ⟨s, e⟩ := se
      rw [hn] at h
      dsimp only at h
      obtain ⟨hp, he, hlen⟩ := textSearchFrom_spec doc term caseSens ww _ p s e hn
      by_cases hg : doc.length + 1 ≤ e
      · exact absurd hg (by omega)
      · rw [if_neg hg] at h
        obtain ⟨l', hl', rfl⟩ := Option.map_eq_some'.mp h
        obtain ⟨hmem, hchain⟩ := ih e l' hl'
        constructor
        · intro m hm
          rcases List.mem_cons.mp hm with rfl | hm'
          · exact ⟨hp, he, hlen⟩
          · have hm2 := hmem m hm'
            exact ⟨by omega, hm2.2.1, hm2.2.2⟩
        · intro hne
          rw [List.chain'_cons']
          refine ⟨?_, hchain hne⟩
          intro y hy
          have hy' := hmem y (List.mem_of_mem_head? hy)
          have htl : 0 < term.length := List.length_pos.mpr hne
          exact ⟨by omega, by omega⟩

lemma findAllLoop_text_total (doc term : List Char) (caseSens ww : Bool)
    (hne : term ≠ []) :
    ∀ fuel p, p ≤ doc.length + 1 → doc.length + 2 ≤ p + fuel →
      (findAllLoop (textSearch doc term caseSens ww) doc.length fuel p).isSome
        = true := by
  intro fuel
  induction fuel with
  | zero => intro p h1 h2; omega
  | succ n ih =>
    intro p h1 h2
    unfold findAllLoop
    cases hn : textSearch doc term caseSens ww p with
    | none => rfl
    | some se =>
      obtain ⟨s, e⟩ := se
      dsimp only
      obtain ⟨hp, he, hlen⟩ := textSearchFrom_spec doc term caseSens ww _ p s e hn
      by_cases hg : doc.length + 1 ≤ e
      · rw [if_pos hg]; rfl
      · rw [if_neg hg]
        have htl : 0 < term.length := List.length_pos.mpr hne
        have hrec := ih e (by omega) (by omega)
        cases hr : findAllLoop (textSearch doc term caseSens ww) doc.length n e with
        | none => rw [hr] at hrec; simp at hrec
        | some l => rfl

lemma replaceSpan_length (d : List Char) (s e : Nat) (repl : List Char)
    (hs : s ≤ e) (he : e ≤ d.length) (hw : repl.length = e - s) :
    (replaceSpan d s e repl).length = d.length := by
  simp only [replaceSpan, List.length_append, List.length_take, List.length_drop]
  omega

lemma replaceSpan_outside (d : List Char) (s e : Nat) (repl : List Char)
    (hs : s ≤ e) (he : e ≤ d.length) (hw : repl.length = e - s)
    (i : Nat) (hi : i < s ∨ e ≤ i) :
    (replaceSpan d s e repl)[i]? = d[i]? := by
  have hlt : (d.take s).length = s := by
    simp only [List.length_take]
    omega
  rcases hi with hi | hi
  · unfold replaceSpan
    rw [List.getElem?_append, if_pos (by omega), List.getElem?_take,
      if_pos hi]
  · unfold replaceSpan
    rw [List.getElem?_append_right (by omega), hlt,
      List.getElem?_append_right (by omega), List.getElem?_drop]
    congr 1
    omega

lemma foldl_replace_preserves (repl : List Char) :
    ∀ (L : List (Nat × Nat)) (d : List Char),
      (∀ m ∈ L, m.1 ≤ m.2 ∧ m.2 ≤ d.length ∧ repl.length = m.2 - m.1) →
      (L.foldl (fun acc m => replaceSpan acc m.1 m.2 repl) d).length = d.length ∧
        ∀ i, (∀ m ∈ L, i < m.1 ∨ m.2 ≤ i) →
          (L.foldl (fun acc m => replaceSpan acc m.1 m.2 repl) d)[i]? = d[i]? := by
  intro L
  induction L with
  | nil => intro d hb; exact ⟨rfl, fun i _ => rfl⟩
  | cons m L' ih =>
    intro d hb
    obtain ⟨h1, h2, h3⟩ := hb m (List.mem_cons_self m L')
    have hlen : (replaceSpan d m.1 m.2 repl).length = d.length :=
      replaceSpan_length d m.1 m.2 repl h1 h2 h3
    have hb' : ∀ x ∈ L',
        x.1 ≤ x.2 ∧ x.2 ≤ (replaceSpan d m.1 m.2 repl).length ∧
          repl.length = x.2 - x.1 := by
      intro x hx
      rw [hlen]
      exact hb x (List.mem_cons_of_mem m hx)
    obtain ⟨ihl, ihg⟩ := ih (replaceSpan d m.1 m.2 repl) hb'
    constructor
    · simp only [List.foldl_cons]
      rw [ihl, hlen]
    · intro i hi
      simp only [List.foldl_cons]
      rw [ihg i (fun x hx => hi x (List.mem_cons_of_mem m hx))]
      exact replaceSpan_outside d m.1 m.2 repl h1 h2 h3 i
        (hi m (List.mem_cons_self m L'))

lemma findAllText_chain (doc term : List Char) (caseSens ww : Bool)
    (hne : term ≠ []) :
    List.Chain' (fun a b : Nat × Nat => a.1 < b.1 ∧ a.2 ≤ b.1)
      (findAllText doc term caseSens ww) := by
  unfold findAllText
  cases hl : findAllLoop (textSearch doc term caseSens ww) doc.length
      (doc.length + 2) 0 with
  | none => simp
  | some l =>
    simp only [Option.getD_some]
    exact (findAllLoop_text_spec doc term caseSens ww _ 0 l hl).2 hne

/-- C5: in plain-text mode, for every document and non-empty term (with any
case-sensitivity and whole-word settings) `_find_all_matches` terminates
within fuel `docLen + 2` and returns spans in strictly increasing start
order, with each span starting at or after the previous span's end. -/
theorem find_all_sorted (doc term : List Char) (caseSens ww : Bool)
    (hne : term ≠ []) :
    (findAllLoop (textSearch doc term caseSens ww) doc.length
        (doc.length + 2) 0).isSome = true ∧
      List.Chain' (fun a b : Nat × Nat => a.1 < b.1 ∧ a.2 ≤ b.1)
        (findAllText doc term caseSens ww) :=
  ⟨findAllLoop_text_total doc term caseSens ww hne _ 0 (by omega) (by omega),
    findAllText_chain doc term caseSens ww hne⟩

/-- Witness for C5 on the document `"abcab"` with term `"ab"`. -/
theorem find_all_sorted_witness :
    ("ab".toList ≠ []) ∧
      List.Chain' (fun a b : Nat × Nat => a.1 < b.1 ∧ a.2 ≤ b.1)
        (findAllText ("abcab".toList) ("ab".toList) true false) :=
  ⟨by decide, (find_all_sorted ("abcab".toList) ("ab".toList) true false
    (by decide)).2⟩

lemma findAllText_bounds (doc term repl : List Char) (caseSens ww : Bool)
    (hw : repl.length = term.length) :
    ∀ m ∈ findAllText doc term caseSens ww,
      m.1 ≤ m.2 ∧ m.2 ≤ doc.length ∧ repl.length = m.2 - m.1 := by
  intro m hm
  unfold findAllText at hm
  cases hl : findAllLoop (textSearch doc term caseSens ww) doc.length
      (doc.length + 2) 0 with
  | none => rw [hl] at hm; simp at hm
  | some l =>
    rw [hl] at hm
    simp only [Option.getD_some] at hm
    have hs := (findAllLoop_text_spec doc term caseSens ww _ 0 l hl).1 m hm
    exact ⟨by omega, hs.2.2, by omega⟩

/-- C4: `_replace_all` computes the full match list against the original
document and applies the replacements by iterating over the reversed match
list; since the matches come out of find-all in strictly increasing start
order, that is reverse document order (highest start offset first). With a
replacement of the same width as the (fixed-width) search term, every
character outside the matched spans stays at its original offset, and the
document length is unchanged. -/
theorem replace_all_reverse_order_preserves (doc term repl : List Char)
    (caseSens ww : Bool) (hne : term ≠ []) (hw : repl.length = term.length) :
    List.Chain' (fun a b : Nat × Nat => a.1 < b.1)
        (findAllText doc term caseSens ww) ∧
      (replaceAllApply doc (findAllText doc term caseSens ww) repl).length
          = doc.length ∧
      ∀ i, (∀ m ∈ findAllText doc term caseSens ww, i < m.1 ∨ m.2 ≤ i) →
        (replaceAllApply doc (findAllText doc term caseSens ww) repl)[i]?
          = doc[i]? := by
  have hchain : List.Chain' (fun a b : Nat × Nat => a.1 < b.1)
      (findAllText doc term caseSens ww) :=
    List.Chain'.imp (fun a b h => h.1) (findAllText_chain doc term caseSens ww hne)
  have hrev : ∀ m ∈ (findAllText doc term caseSens ww).reverse,
      m.1 ≤ m.2 ∧ m.2 ≤ doc.length ∧ repl.length = m.2 - m.1 := by
    intro m hm
    exact findAllText_bounds doc term repl caseSens ww hw m
      (List.mem_reverse.mp hm)
  obtain ⟨hlen, hget⟩ := foldl_replace_preserves repl
    ((findAllText doc term caseSens ww).reverse) doc hrev
  refine ⟨hchain, hlen, ?_⟩
  intro i hi
  exact hget i (fun m hm => hi m (List.mem_reverse.mp hm))

/-- Witness for C4 on document `"abcab"`, term `"ab"`, replacement `"xy"`,
checked at offset 2 (the character `c` between the two matches). -/
theorem replace_all_reverse_order_preserves_witness :
    ("ab".toList ≠ [] ∧ ("xy".toList).length = ("ab".toList).length) ∧
      (replaceAllApply ("abcab".toList)
          (findAllText ("abcab".toList) ("ab".toList) true false)
          ("xy".toList))[2]? = ("abcab".toList)[2]? :=
  ⟨⟨by decide, by decide⟩,
    (replace_all_reverse_order_preserves ("abcab".toList) ("ab".toList)
      ("xy".toList) true false (by decide) (by decide)).2.2 2 (by decide)⟩

/-- C6: on the document `"foo BAR foo"`, a case-insensitive plain-text search
for `"foo"` with the whole-word filter on finds exactly the two matches at
offsets 0 and 8; and in general `_is_whole_word` accepts a candidate span iff
the character immediately before it (when one exists) and the character
immediately after it (when one exists) are not alphanumeric-or-underscore. -/
theorem whole_word_case_insensitive_search :
    findAllText ("foo BAR foo".toList) ("foo".toList) false true
        = [(0, 3), (8, 11)] ∧
      ∀ (d : List Char) (s e : Nat),
        isWholeWord d s e =
          (!((if s = 0 then none else d[s - 1]?).elim false isWordChar) &&
            !((d[e]?).elim false isWordChar)) := by
  refine ⟨by decide, ?_⟩
  intro d s e
  unfold isWholeWord beforeOk afterOk
  cases s with
  | zero => cases d[e]? <;> simp
  | succ s' =>
    simp only [Nat.succ_ne_zero, if_neg, Nat.add_sub_cancel]
    cases d[s']? <;> cases d[e]? <;> simp

/-- Regular-expression abstract syntax covering the constructs used by the
language definitions of `SyntaxHighlighter` and by the regex search mode.
Every pattern in the source is compiled with `re.MULTILINE | re.DOTALL`, so
`dot` (Python `.`) matches every character including newlines, and `eol`
(Python `$`) matches at the end of the input and immediately before any
newline. `star true` is a lazy `*?`, `star false` a greedy `*`; `grp` is
capture group 1. -/
inductive Re where
  | eps : Re
  | lit : Char → Re
  | dot : Re
  | cls : Bool → List (Char × Char) → Re
  | cat : Re → Re → Re
  | alt : Re → Re → Re
  | star : Bool → Re → Re
  | eol : Re
  | wordB : Re
  | grp : Re → Re

/-- A backtracking-candidate result: the candidate match end and the span of
capture group 1 when that group participated. -/
structure MRes where
  endPos : Nat
  grp1 : Option (Nat × Nat)

/-- Membership of a character in a character class given as ranges. -/
def inCls (rs : List (Char × Char)) (c : Char) : Bool :=
  rs.any (fun r => decide (r.1 ≤ c) && decide (c ≤ r.2))

/-- The later capture wins, as in Python's `re` where a group records its
most recent participation. -/
def mergeGrp (later earlier : Option (Nat × Nat)) : Option (Nat × Nat) :=
  match later with
  | some g => some g
  | none => earlier

/-- All candidate match ends of a regex at position `i` of `s`, in Python's
backtracking preference order (head = the end the `re` engine commits to):
ordered alternation, greedy `star` preferring the longest extension first and
lazy `star` the shortest, with the strict-advance guard the engine applies to
zero-width `star` iterations. `fuel` bounds the recursion depth; every
recursive call decrements it, so any fuel at least
`(len s + 1) * (size of the regex + 1)` is exact. -/
def ends (s : List Char) : Nat → Re → Nat → List MRes
  | 0, _, _ => []
  | fuel + 1, r, i =>
    match r with
    | .eps => [⟨i, none⟩]
    | .lit c =>
      match s[i]? with
      | some d => if d == c then [⟨i + 1, none⟩] else []
      | none => []
    | .dot =>
      match s[i]? with
      | some _ => [⟨i + 1, none⟩]
      | none => []
    | .cls neg rs =>
      match s[i]? with
      | some d => if inCls rs d != neg then [⟨i + 1, none⟩] else []
      | none => []
    | .cat a b =>
      (ends s fuel a i).flatMap (fun r1 =>
        (ends s fuel b r1.endPos).map (fun r2 =>
          ⟨r2.endPos, mergeGrp r2.grp1 r1.grp1⟩))
    | .alt a b => ends s fuel a i ++ ends s fuel b i
    | .star lz a =>
      let more := (ends s fuel a i).flatMap (fun r1 =>
        if i < r1.endPos then
          (ends s fuel (.star lz a) r1.endPos).map (fun r2 =>
            ⟨r2.endPos, mergeGrp r2.grp1 r1.grp1⟩)
        else [])
      if lz then ⟨i, none⟩ :: more else more ++ [⟨i, none⟩]
    | .eol =>
      if i == s.length || (s[i]?).elim false (· == '\n') then [⟨i, none⟩]
      else []
    | .wordB =>
      if ((if i = 0 then none else s[i - 1]?).elim false isWordChar)
          != ((s[i]?).elim false isWordChar) then [⟨i, none⟩]
      else []
    | .grp a =>
      (ends s fuel a i).map (fun r1 => ⟨r1.endPos, some (i, r1.endPos)⟩)

/-- Syntactic size of a regex, used to pick a sufficient fuel. -/
def reSize : Re → Nat
  | .cat a b => reSize a + reSize b + 1
  | .alt a b => reSize a + reSize b + 1
  | .star _ a => reSize a + 1
  | .grp a => reSize a + 1
  | _ => 1

/-- The match the Python `re` engine commits to at position `i`, if any. -/
def matchAt (s : List Char) (r : Re) (i : Nat) : Option MRes :=
  (ends s ((s.length + 1) * (reSize r + 1) + 1) r i).head?

/-- `re.finditer` scan: try each position left to right, emit the committed
match, and continue from its end — or from the next position after a
zero-width match or a failure. -/
def finditerFrom (s : List Char) (r : Re) :
    Nat → Nat → List (Nat × Nat × Option (Nat × Nat))
  | 0, _ => []
  | fuel + 1, p =>
    if s.length < p then []
    else
      match matchAt s r p with
      | some m =>
        (p, m.endPos, m.grp1) ::
          finditerFrom s r fuel (if p < m.endPos then m.endPos else p + 1)
      | none => finditerFrom s r fuel (p + 1)

/-- `re.finditer(pattern, content, re.MULTILINE | re.DOTALL)`: every scan
strictly advances the position, so fuel `len s + 2` is exact. -/
def findIter (s : List Char) (r : Re) : List (Nat × Nat × Option (Nat × Nat)) :=
  finditerFrom s r (s.length + 2) 0

/-- `SyntaxHighlighter._highlight_pattern(content, pattern, tag, group)`:
iterate all matches and emit the span of the requested group (`group=0` is
the whole match, `group=1` the first capture group). A pattern whose
compilation raises `re.error` is represented as `none`: the
`except re.error: pass` in the source makes that category contribute no
spans and never aborts the scan. -/
def highlightPattern (content : List Char) (pat : Option Re) (grpOne : Bool) :
    List (Nat × Nat) :=
  match pat with
  | none => []
  | some r =>
    (findIter content r).filterMap (fun m =>
      if grpOne then m.2.2 else some (m.1, m.2.1))

/-- `SearchReplace._regex_search(pattern, start_pos)`: search the text from
the start position to the end of the document for the first match of the
compiled pattern, and map the relative match offsets back to absolute
document offsets. -/
def reSearch (doc : List Char) (r : Re) (p : Nat) : Option (Nat × Nat) :=
  (((List.range ((doc.drop p).length + 1)).filterMap (fun q =>
      (matchAt (doc.drop p) r q).map (fun m => (q, m.endPos)))).head?).map
    (fun m => (p + m.1, p + m.2))

/-- The single-quote character (written via its code point to keep the
pattern transcriptions readable). -/
def quoteC : Char := Char.ofNat 39

/-- A regex matching one fixed word, character by character. -/
def litSeq : List Char → Re
  | [] => .eps
  | c :: cs => .cat (.lit c) (litSeq cs)

/-- Ordered alternation of a list of regexes (Python `a|b|...`); the empty
alternation matches nothing. -/
def altPats : List Re → Re
  | [] => .cls false []
  | [r] => r
  | r :: rs => .alt r (altPats rs)

/-- Python `\w` over the ASCII range. -/
def wordCls : Re := .cls false [('a', 'z'), ('A', 'Z'), ('0', '9'), ('_', '_')]

/-- Python `\d`. -/
def digitCls : Re := .cls false [('0', '9')]

/-- Python `\s` (ASCII whitespace). -/
def spaceCls : Re :=
  .cls false [(' ', ' '), ('\t', '\t'), ('\n', '\n'), ('\r', '\r'),
    ('\x0b', '\x0b'), ('\x0c', '\x0c')]

/-- The Python language `comment` pattern `#.*$` from the language table of
`SyntaxHighlighter`. -/
def pyComment : Re := .cat (.lit '#') (.cat (.star false .dot) .eol)

/-- The Python language `string` pattern
`(""".*?"""|'''.*?'''|"(?:[^"\\]|\\.)*"|'(?:[^'\\]|\\.)*')`. -/
def pyString : Re :=
  .grp (altPats
    [.cat (litSeq ['"', '"', '"'])
        (.cat (.star true .dot) (litSeq ['"', '"', '"'])),
     .cat (litSeq [quoteC, quoteC, quoteC])
        (.cat (.star true .dot) (litSeq [quoteC, quoteC, quoteC])),
     .cat (.lit '"')
        (.cat (.star false (.alt (.cls true [('"', '"'), ('\\', '\\')])
          (.cat (.lit '\\') .dot))) (.lit '"')),
     .cat (.lit quoteC)
        (.cat (.star false (.alt (.cls true [(quoteC, quoteC), ('\\', '\\')])
          (.cat (.lit '\\') .dot))) (.lit quoteC))])

/-- The Python language `number` pattern `\b\d+\.?\d*\b`. -/
def pyNumber : Re :=
  .cat .wordB (.cat digitCls (.cat (.star false digitCls)
    (.cat (.alt (.lit '.') .eps) (.cat (.star false digitCls) .wordB))))

/-- The Python language `decorator` pattern `@\w+`. -/
def pyDecorator : Re := .cat (.lit '@') (.cat wordCls (.star false wordCls))

/-- The Python language `function_def` pattern `\bdef\s+(\w+)` (scanned with
`group=1`). -/
def pyFunctionDef : Re :=
  .cat .wordB (.cat (litSeq ['d', 'e', 'f'])
    (.cat (.cat spaceCls (.star false spaceCls))
      (.grp (.cat wordCls (.star false wordCls)))))

/-- The Python language `class_def` pattern `\bclass\s+(\w+)` (scanned with
`group=1`). -/
def pyClassDef : Re :=
  .cat .wordB (.cat (litSeq ['c', 'l', 'a', 's', 's'])
    (.cat (.cat spaceCls (.star false spaceCls))
      (.grp (.cat wordCls (.star false wordCls)))))

/-- The `keywords` word list of the Python language definition, in source
order. -/
def pyKeywords : List (List Char) :=
  ["and", "as", "assert", "break", "class", "continue", "def",
   "del", "elif", "else", "except", "exec", "finally", "for",
   "from", "global", "if", "import", "in", "is", "lambda",
   "not", "or", "pass", "print", "raise", "return", "try",
   "while", "with", "yield", "True", "False", "None", "self",
   "async", "await", "nonlocal"].map String.toList

/-- The `builtins` word list of the Python language definition, in source
order. -/
def pyBuiltins : List (List Char) :=
  ["abs", "all", "any", "bin", "bool", "chr", "dict", "dir",
   "enumerate", "eval", "filter", "float", "frozenset", "getattr",
   "globals", "hasattr", "hash", "hex", "id", "input", "int",
   "isinstance", "issubclass", "iter", "len", "list", "locals",
   "map", "max", "min", "next", "object", "oct", "open", "ord",
   "pow", "property", "range", "repr", "reversed", "round",
   "set", "setattr", "slice", "sorted", "str", "sum", "super",
   "tuple", "type", "vars", "zip", "__import__"].map String.toList

/-- `SyntaxHighlighter._highlight_keywords`: the word list is joined into the
single alternation `\b(?:kw1|kw2|...)\b` and scanned like any other
pattern. -/
def keywordPattern (kws : List (List Char)) : Re :=
  .cat .wordB (.cat (altPats (kws.map litSeq)) .wordB)

/-- The sequence of `_highlight_pattern` / `_highlight_keywords` calls made
by `_highlight_python`, in source order: tag, compiled pattern (`none` for a
pattern whose compilation raised `re.error`), and the group-1 flag. -/
def pythonCats : List (String × Option Re × Bool) :=
  [("string", some pyString, false),
   ("comment", some pyComment, false),
   ("decorator", some pyDecorator, false),
   ("function", some pyFunctionDef, true),
   ("class", some pyClassDef, true),
   ("number", some pyNumber, false),
   ("keyword", some (keywordPattern pyKeywords), false),
   ("builtin", some (keywordPattern pyBuiltins), false)]

/-- The concrete Python document named by the spec's testable properties. -/
def pyDoc : List Char :=
  "# comment\nkeyword_like_text = 'a string with def inside'".toList

/-- Whether the worker's `stop_highlighting` flag is set when category `i`
starts: `some k` models a cancellation request arriving after the first `k`
categories have been scanned, `none` an uncancelled scan. -/
def stopFlag : Option Nat → Nat → Bool
  | none, _ => false
  | some k, i => decide (k ≤ i)

/-- The highlight worker's pass over the ordered category list: each
`_highlight_pattern` call checks the cancellation flag on entry and
contributes nothing once it is set; otherwise it emits its tagged spans
(scheduled to the widget via `after_idle` as they are found). -/
def scanCatsFrom (content : List Char) (stopAt : Option Nat) :
    List (String × Option Re × Bool) → Nat → List (String × Nat × Nat)
  | [], _ => []
  | c :: rest, i =>
    (if stopFlag stopAt i then []
      else (highlightPattern content c.2.1 c.2.2).map (fun sp => (c.1, sp)))
      ++ scanCatsFrom content stopAt rest (i + 1)

/-- An uncancelled scan over a category list. -/
def scanCategories (content : List Char)
    (cats : List (String × Option Re × Bool)) : List (String × Nat × Nat) :=
  scanCatsFrom content none cats 0

/-- A scan whose cancellation flag is set before category `k` begins
(`stopAt = some k`), or never (`stopAt = none`). -/
def scanWithCancel (content : List Char)
    (cats : List (String × Option Re × Bool)) (stopAt : Option Nat) :
    List (String × Nat × Nat) :=
  scanCatsFrom content stopAt cats 0

/-- C2 evaluation at the failing input: on the document
`"# comment\nkeyword_like_text = 'a string with def inside'"` with the Python
language definition, the comment pattern `#.*$` — compiled, like every
pattern, with `re.MULTILINE | re.DOTALL` — matches from the `#` to the end of
the whole document (span `(0, 56)`), not to the end of its line (span
`(0, 9)`); the string pattern does tag the quoted span `(30, 56)`; and the
keyword scan emits keyword spans for `with` `(40, 44)` and `def` `(45, 48)`
even though both lie inside the string span. -/
theorem python_highlight_failing_input :
    highlightPattern pyDoc (some pyComment) false = [(0, 56)] ∧
      highlightPattern pyDoc (some pyString) false = [(30, 56)] ∧
      highlightPattern pyDoc (some (keywordPattern pyKeywords)) false
        = [(40, 44), (45, 48)] ∧
      (45, 48) ∈ highlightPattern pyDoc (some (keywordPattern pyKeywords)) false := by
  refine ⟨by decide, by decide, ?_, ?_⟩
  · decide
  · decide

/-- The document and pattern exhibiting the find-all nontermination: regex
mode with the pattern `x*`, which matches the empty string at offset 0 of the
document `"b"`. -/
def docB : List Char := "b".toList

/-- The regex `x*`. -/
def reXstar : Re := .star false (.lit 'x')

/-- C3 refutation at the failing input: with the regex-mode single-match
search as the `next` function, `_find_all_matches` on document `"b"` and
pattern `x*` never terminates. The zero-length match `(0, 0)` is appended,
`start_pos` is set to the match end — the same offset 0 — and the only loop
guard compares `start_pos` against the Tk `end` index, so the loop re-finds
the same zero-length match forever: no amount of fuel completes it. -/
theorem find_all_zero_width_never_terminates (fuel : Nat) :
    findAllLoop (reSearch docB reXstar) docB.length fuel 0 = none := by
  induction fuel with
  | zero => rfl
  | succ n ih =>
    have hx : reSearch docB reXstar 0 = some (0, 0) := by decide
    unfold findAllLoop
    rw [hx]
    dsimp only
    rw [if_neg (by decide), ih]
    rfl

lemma scanCatsFrom_none_idx (content : List Char) :
    ∀ (cats : List (String × Option Re × Bool)) (i j : Nat),
      scanCatsFrom content none cats i = scanCatsFrom content none cats j := by
  intro cats
  induction cats with
  | nil => intro i j; rfl
  | cons c rest ih =>
    intro i j
    simp only [scanCatsFrom, stopFlag]
    rw [ih (i + 1) (j + 1)]

lemma scanCatsFrom_none_append (content : List Char) :
    ∀ (l1 l2 : List (String × Option Re × Bool)) (i : Nat),
      scanCatsFrom content none (l1 ++ l2) i
        = scanCatsFrom content none l1 i
          ++ scanCatsFrom content none l2 (i + l1.length) := by
  intro l1
  induction l1 with
  | nil => intro l2 i; simp [scanCatsFrom]
  | cons c rest ih =>
    intro l2 i
    simp only [List.cons_append, scanCatsFrom, stopFlag, List.length_cons,
      List.append_eq]
    rw [ih l2 (i + 1), List.append_assoc]
    rw [scanCatsFrom_none_idx content l2 (i + 1 + rest.length)
      (i + (rest.length + 1))]

/-- C8: a malformed pattern (one whose compilation raised `re.error`,
modelled as `none`) makes exactly its own category contribute no spans: the
scan of any category list containing it equals the scan of the other
categories, and the malformed category itself emits the empty span list — it
never aborts the whole scan. -/
theorem malformed_pattern_skips_category (content : List Char)
    (c1 c2 : List (String × Option Re × Bool)) (t : String) (g : Bool) :
    scanCategories content (c1 ++ (t, none, g) :: c2)
        = scanCategories content c1 ++ scanCategories content c2 ∧
      highlightPattern content none g = [] := by
  refine ⟨?_, rfl⟩
  unfold scanCategories
  rw [scanCatsFrom_none_append]
  congr 1
  simp only [scanCatsFrom, stopFlag, highlightPattern, List.map_nil,
    List.nil_append, if_neg]
  exact scanCatsFrom_none_idx content c2 (0 + c1.length + 1) 0

lemma scanCatsFrom_stop (content : List Char) (k : Nat) :
    ∀ (cats : List (String × Option Re × Bool)) (i : Nat),
      scanCatsFrom content (some k) cats i
        = scanCatsFrom content none (cats.take (k - i)) i := by
  intro cats
  induction cats with
  | nil => intro i; simp [scanCatsFrom]
  | cons c rest ih =>
    intro i
    by_cases hk : k ≤ i
    · have h0 : k - i = 0 := by omega
      have h1 : k - (i + 1) = 0 := by omega
      have hsf : stopFlag (some k) i = true := by
        simp [stopFlag, hk]
      simp only [scanCatsFrom, hsf, if_true, List.nil_append]
      rw [ih (i + 1), h1, h0]
      simp [scanCatsFrom]
    · obtain ⟨d, hd⟩ : ∃ d, k - i = d + 1 := ⟨k - i - 1, by omega⟩
      have hsf : stopFlag (some k) i = false := by
        simp [stopFlag]; omega
      have hsf2 : stopFlag none i = false := rfl
      have hd2 : k - (i + 1) = d := by omega
      rw [hd, List.take_succ_cons]
      simp only [scanCatsFrom]
      rw [hsf, hsf2, ih (i + 1), hd2]

/-- C9 amended: a scan whose cancellation flag is set before category `k`
emits exactly the spans of the categories already scanned — the categories
from the cancellation point on contribute nothing, but the spans emitted
before the flag was set remain in the output (cancellation is not an error
and produces a partial, not empty, result); an uncancelled scan emits the
complete span set. -/
theorem scan_cancel_emits_scanned_prefix (content : List Char)
    (cats : List (String × Option Re × Bool)) (k : Nat) :
    scanWithCancel content cats (some k)
        = scanCategories content (cats.take k) ∧
      scanWithCancel content cats none = scanCategories content cats := by
  refine ⟨?_, rfl⟩
  unfold scanWithCancel scanCategories
  rw [scanCatsFrom_stop, Nat.sub_zero]

/-- C9 counterexample: cancelling the Python scan of the spec's document
after the first category (strings) has been scanned — the flag is set before
category 1 of 8 starts, so categories are still unscanned — does not yield
zero spans: the string span `(30, 56)` emitted before the cancellation point
is still in the output. -/
theorem scan_cancel_partial_output_counterexample :
    scanWithCancel pyDoc pythonCats (some 1) = [("string", 30, 56)] ∧
      ([("string", 30, 56)] : List (String × Nat × Nat)) ≠ [] := by
  refine ⟨?_, by decide⟩
  decide
